import Mathlib

/-!
Verification of the Crypto_trade_monitor pipeline.

Part 1 embeds `src/ingestion/producer_binance.py` (the Binance WebSocket
feed listener / Kafka producer): trade formatting (`_format_trade`),
message handling (`_on_message`), idempotent shutdown (`stop`), and the
reconnect/backoff loop (`start` together with `_on_open`).

Part 2 embeds the Flink SQL job `src/flink-jobs/anomaly_detector.py`:
the event-time tumbling-window aggregation declared by the
`windowed_trades` view (window size 10 s, watermark = rowtime − 5 s,
`SUM(qty)` / `AVG(price)` per `(symbol, exchange)` group) and the alert
query (`WHERE volume > 1.0`, `signal = 'volume_spike'`,
`ts = UNIX_TIMESTAMP(window_end) * 1000`).  SQL `DOUBLE` values are
modelled as exact rationals; per-key streams are obtained by filtering
the input by the `GROUP BY` key, which matches the declarative grouping
semantics.
-/

/-! ### Part 1: the Binance producer (`src/ingestion/producer_binance.py`) -/

/-- Fields of a decoded Binance trade payload, each `none` when the key is
absent from the JSON object.  `e` is the message type, `T` the trade time,
`E` the event time, `m` the maker flag, `s` the symbol, `t` the trade id,
`a` the aggregate trade id, `p` the price string, `q` the quantity string. -/
structure RawTrade where
  e : Option String
  T : Option Int
  E : Option Int
  m : Option Bool
  s : Option String
  t : Option Int
  a : Option Int
  p : Option String
  q : Option String
deriving DecidableEq

/-- Python `x or y` on an optional integer: `x` is kept only when it is
present and truthy (nonzero); `None` and `0` both fall through to `y`. -/
def orTruthy (x : Option Int) (y : Int) : Int :=
  match x with
  | none => y
  | some v => if v = 0 then y else v

/-- The wire-format record produced to Kafka (producer_binance.py lines
163-172): the eight fields of the `trades.raw` JSON object. -/
structure WireRecord where
  ts : Int
  ingest_ts : Int
  exchange : String
  symbol : String
  trade_id : String
  side : String
  price : String
  qty : String
deriving DecidableEq

/-- `BinanceTradeProducer._format_trade` (lines 159-172): `ts` is
`int(trade.get("T") or trade.get("E") or ingest_ts)`, `side` is `"sell"`
iff the maker flag `m` is truthy, `trade_id` is
`str(trade.get("t", trade.get("a", ingest_ts)))` (note: `dict.get` with a
default falls back only on an absent key), `price`/`qty` default to `"0"`
and the symbol to `""`. -/
def format_trade (ingest_ts : Int) (tr : RawTrade) : WireRecord :=
  ⟨orTruthy tr.T (orTruthy tr.E ingest_ts),
   ingest_ts,
   "binance",
   (tr.s.getD "").toUpper,
   toString (tr.t.getD (tr.a.getD ingest_ts)),
   if tr.m.getD false then "sell" else "buy",
   tr.p.getD "0",
   tr.q.getD "0"⟩

/-- A WebSocket message as seen by `_on_message` after JSON decoding:
either the decode raised `JSONDecodeError`, or it yielded an object; in
the latter case `trade` is the dict selected by
`payload.get("data") or payload` and `isEmpty` records whether that dict
is falsy (empty). -/
inductive WsMessage where
  | badJson : WsMessage
  | msg (trade : RawTrade) (isEmpty : Bool) : WsMessage
deriving DecidableEq

/-- Log lines the handler can emit. -/
inductive LogEvent where
  | warnInvalidJson : LogEvent
  | errorProcessing : LogEvent
deriving DecidableEq

/-- Result of one `_on_message` call: the record handed to
`kafka_producer.produce` (if any) and the log lines written. -/
structure HandlerOutput where
  produced : Option WireRecord
  log : List LogEvent
deriving DecidableEq

/-- `BinanceTradeProducer._on_message` (lines 138-155): a JSON decode
failure is logged as a warning and dropped; an empty payload or one whose
`e` field is not `"trade"` is dropped by the early `return` with no log
line; otherwise exactly one formatted record is produced.  The handler is
total: every branch returns, mirroring the `try/except` that stops any
exception from propagating. -/
def on_message (message : WsMessage) (ingest_ts : Int) : HandlerOutput :=
  match message with
  | .badJson => ⟨none, [.warnInvalidJson]⟩
  | .msg tr isEmpty =>
      if isEmpty = true ∨ tr.e ≠ some "trade" then ⟨none, []⟩
      else ⟨some (format_trade ingest_ts tr), []⟩

/-- Observable state of a `BinanceTradeProducer` for the shutdown path:
whether `stop_event` is set, whether `ws_app` is non-None, and how many
times `ws_app.close()` and `kafka_producer.flush(10)` have run. -/
structure ProducerState where
  stopFlag : Bool
  wsOpen : Bool
  closeCalls : Nat
  flushCalls : Nat
deriving DecidableEq

/-- `BinanceTradeProducer.stop` (lines 94-105): an early return when
`stop_event` is already set; otherwise set the event, close the
WebSocket app if present, and flush the Kafka producer. -/
def stop (st : ProducerState) : ProducerState :=
  if st.stopFlag then st
  else ⟨true, st.wsOpen, st.closeCalls + (if st.wsOpen then 1 else 0), st.flushCalls + 1⟩

/-- Outcome of one iteration of the `start` reconnect loop: whether the
WebSocket connection opened successfully (firing `_on_open`) before
`run_forever` returned. -/
inductive Attempt where
  | opened : Attempt
  | failed : Attempt
deriving DecidableEq

/-- One pass through the tail of the `start` loop (lines 176-198): if the
connection opened, `_on_open` (line 129) reset `_backoff_seconds` to 1;
the loop then sleeps the current backoff and doubles it, capping at 60.
Returns the delay slept and the next backoff value. -/
def backoff_step (b : Nat) (a : Attempt) : Nat × Nat :=
  let cur := match a with
    | .opened => 1
    | .failed => b
  (cur, min (cur * 2) 60)

/-- The sequence of delays slept by the reconnect loop, starting from
backoff value `b`, over a run of connection attempts. -/
def reconnect_delays (b : Nat) : List Attempt → List Nat
  | [] => []
  | a :: rest =>
      let p := backoff_step b a
      p.1 :: reconnect_delays p.2 rest

/-! ### Part 1 theorems -/

/-- Helper: delays of a run of consecutive failed attempts starting from a
backoff value of the form `min (2 ^ k) 60`. -/
theorem reconnect_delays_replicate_failed (n k : Nat) :
    reconnect_delays (min (2 ^ k) 60) (List.replicate n .failed) =
      (List.range n).map (fun i => min (2 ^ (k + i)) 60) := by
  induction n generalizing k with
  | zero => simp [reconnect_delays]
  | succ n ih =>
      have h2 : min (min (2 ^ k) 60 * 2) 60 = min (2 ^ (k + 1)) 60 := by
        have := pow_succ 2 k
        omega
      have e1 : reconnect_delays (min (2 ^ k) 60) (List.replicate (n + 1) .failed)
          = min (2 ^ k) 60 :: reconnect_delays (min (2 ^ (k + 1)) 60) (List.replicate n .failed) := by
        rw [List.replicate_succ]
        simp only [reconnect_delays, backoff_step]
        rw [h2]
      rw [e1, ih (k + 1), List.range_succ_eq_map, List.map_cons, List.map_map]
      have hmap : List.map ((fun i => 2 ^ (k + i) ⊓ 60) ∘ Nat.succ) (List.range n)
          = List.map (fun i => 2 ^ (k + 1 + i) ⊓ 60) (List.range n) := by
        apply List.map_congr_left
        intro i hi
        have hki : k + (i + 1) = k + 1 + i := by omega
        simp [Function.comp, Nat.succ_eq_add_one, hki]
      rw [hmap]
      simp

/-- C3: the reconnect loop's backoff delays over consecutive failed
attempts are `min (2 ^ i) 60`, i.e. `1, 2, 4, 8, 16, 32, 60, 60, ...`
(doubling, capped at 60), and after a successful open the delay for the
next disconnect is again `1` (with subsequent failures continuing
`2, 4, ...`), because `_on_open` resets `_backoff_seconds` to 1. -/
theorem reconnect_backoff_sequence :
    (∀ n : Nat, reconnect_delays 1 (List.replicate n .failed) =
      (List.range n).map (fun i => min (2 ^ i) 60)) ∧
    (∀ (b : Nat) (rest : List Attempt),
      reconnect_delays b (.opened :: rest) = 1 :: reconnect_delays 2 rest) := by
  constructor
  · intro n
    have h := reconnect_delays_replicate_failed n 0
    simpa using h
  · intro b rest
    rfl

/-- C9: `stop` is idempotent — a second invocation returns early on the
already-set `stop_event` and performs no additional close, flush, or
state change. -/
theorem stop_idempotent : ∀ st : ProducerState, stop (stop st) = stop st := by
  intro st
  by_cases h : st.stopFlag <;> simp [stop, h]

/-- Python-falsiness of an optional integer field: absent or zero. -/
def pyFalsy (x : Option Int) : Prop := x = none ∨ x = some 0

/-- C7 counterexample: a valid trade message whose exchange-reported trade
timestamp `T` is present but equal to `0` does not get `eventTime = 0`;
Python's `or` treats `0` as falsy, so `_format_trade` falls through to the
local receipt time (777 here).  This refutes the claim that `eventTime`
equals the exchange-reported trade timestamp whenever it is present. -/
theorem trade_field_mapping_counterexample :
    (RawTrade.mk (some "trade") (some 0) none none none none none none none).T = some 0 ∧
    (format_trade 777
      (RawTrade.mk (some "trade") (some 0) none none none none none none none)).ts = 777 ∧
    (777 : Int) ≠ 0 := by
  refine ⟨rfl, rfl, by decide⟩

/-- C7 (amended): field mapping of `_format_trade` — `ingestTime` is the
local receipt time taken at parse time; `eventTime` is the trade time `T`
when present and nonzero, else the event time `E` when present and
nonzero, else the local receipt time; `side` is `"sell"` iff the maker
flag is set (truthy); and `tradeId` falls back to a synthetic value
derived from the ingest time when the feed omits both `t` and `a`. -/
theorem trade_field_mapping (ingest_ts : Int) (tr : RawTrade) :
    (format_trade ingest_ts tr).ingest_ts = ingest_ts ∧
    (∀ v, tr.T = some v → v ≠ 0 → (format_trade ingest_ts tr).ts = v) ∧
    (∀ w, pyFalsy tr.T → tr.E = some w → w ≠ 0 → (format_trade ingest_ts tr).ts = w) ∧
    (pyFalsy tr.T → pyFalsy tr.E → (format_trade ingest_ts tr).ts = ingest_ts) ∧
    (tr.m = some true → (format_trade ingest_ts tr).side = "sell") ∧
    (tr.m ≠ some true → (format_trade ingest_ts tr).side = "buy") ∧
    (tr.t = none → tr.a = none → (format_trade ingest_ts tr).trade_id = toString ingest_ts) := by
  refine ⟨rfl, ?_, ?_, ?_, ?_, ?_, ?_⟩
  · intro v hv hne
    simp [format_trade, orTruthy, hv, hne]
  · intro w hT hE hne
    rcases hT with h | h <;> simp [format_trade, orTruthy, h, hE, hne]
  · intro hT hE
    rcases hT with h | h <;> rcases hE with h' | h' <;>
      simp [format_trade, orTruthy, h, h']
  · intro hm
    simp [format_trade, hm]
  · intro hm
    rcases h : tr.m with _ | b
    · simp [format_trade, h]
    · cases b
      · simp [format_trade, h]
      · exact absurd h hm
  · intro ht ha
    simp [format_trade, ht, ha]

/-- C7 witness: at ingest time 777 and a payload with `T = 123` and the
maker flag set, the produced record has `ts = 123` and `side = "sell"`. -/
theorem trade_field_mapping_witness :
    (format_trade 777
      (RawTrade.mk (some "trade") (some 123) (some 456) (some true)
        (some "btcusdt") none none (some "1.5") (some "2"))).ts = 123 ∧
    (format_trade 777
      (RawTrade.mk (some "trade") (some 123) (some 456) (some true)
        (some "btcusdt") none none (some "1.5") (some "2"))).side = "sell" :=
  ⟨(trade_field_mapping 777 _).2.1 123 rfl (by decide),
   (trade_field_mapping 777 _).2.2.2.2.1 rfl⟩

/-- C8 counterexample: a decodable payload of a non-trade message type
(`e = "ping"`) is dropped by the early `return` in `_on_message` with an
empty log — no condition is logged, refuting the claim that every
malformed payload is logged and dropped. -/
theorem malformed_payload_counterexample :
    on_message
      (.msg (RawTrade.mk (some "ping") none none none none none none none none) false) 5 =
      ⟨none, []⟩ := by
  decide

/-- C8 (amended): undecodable payloads are logged with a warning and
dropped; empty payloads and non-trade message types are silently dropped
(no log line, no record); and a record is produced only for a non-empty
payload of message type `"trade"`, in which case it is the formatted
trade.  The handler is a total function, so no exception escapes it. -/
theorem malformed_payload_handling (ingest_ts : Int) :
    on_message .badJson ingest_ts = ⟨none, [.warnInvalidJson]⟩ ∧
    (∀ (tr : RawTrade) (isEmpty : Bool), (isEmpty = true ∨ tr.e ≠ some "trade") →
      on_message (.msg tr isEmpty) ingest_ts = ⟨none, []⟩) ∧
    (∀ m : WsMessage, (on_message m ingest_ts).produced = none ∨
      ∃ tr, m = .msg tr false ∧ tr.e = some "trade" ∧
        (on_message m ingest_ts).produced = some (format_trade ingest_ts tr)) := by
  refine ⟨rfl, ?_, ?_⟩
  · intro tr isEmpty h
    simp [on_message, h]
  · intro m
    match m with
    | .badJson => exact Or.inl rfl
    | .msg tr isEmpty =>
        by_cases h : isEmpty = true ∨ tr.e ≠ some "trade"
        · left
          simp [on_message, h]
        · push_neg at h
          have hE : isEmpty = false := by simpa using h.1
          subst hE
          exact Or.inr ⟨tr, rfl, h.2, by simp [on_message, h.2]⟩

/-- C8 witness: at ingest time 5, an undecodable payload is logged and
dropped, and a non-trade payload is silently dropped. -/
theorem malformed_payload_handling_witness :
    on_message .badJson 5 = ⟨none, [.warnInvalidJson]⟩ ∧
    on_message
      (.msg (RawTrade.mk (some "ack") none none none none none none none none) false) 5 =
      ⟨none, []⟩ :=
  ⟨(malformed_payload_handling 5).1,
   (malformed_payload_handling 5).2.1 _ false (Or.inr (by decide))⟩

/-- C10: trade formatting is total — every payload of message type
`"trade"` yields a produced record with all eight wire-format fields,
where a missing price or quantity defaults to the string `"0"` and a
missing symbol to the empty string. -/
theorem format_trade_total_defaults (ingest_ts : Int) (tr : RawTrade) :
    (tr.e = some "trade" →
      on_message (.msg tr false) ingest_ts = ⟨some (format_trade ingest_ts tr), []⟩) ∧
    (tr.p = none → (format_trade ingest_ts tr).price = "0") ∧
    (tr.q = none → (format_trade ingest_ts tr).qty = "0") ∧
    (tr.s = none → (format_trade ingest_ts tr).symbol = "") := by
  refine ⟨?_, ?_, ?_, ?_⟩
  · intro he
    simp [on_message, he]
  · intro hp
    simp [format_trade, hp]
  · intro hq
    simp [format_trade, hq]
  · intro hs
    have hsym : (format_trade ingest_ts tr).symbol = "".toUpper := by
      simp [format_trade, hs]
    rw [hsym]
    simp [String.toUpper, String.map_eq]

/-- C10 witness: a trade payload carrying only `e = "trade"` still yields
a full record, with price `"0"`, qty `"0"` and empty symbol. -/
theorem format_trade_total_defaults_witness :
    on_message (.msg (RawTrade.mk (some "trade") none none none none none none none none) false) 42 =
      ⟨some (format_trade 42 (RawTrade.mk (some "trade") none none none none none none none none)), []⟩ ∧
    (format_trade 42 (RawTrade.mk (some "trade") none none none none none none none none)).price = "0" ∧
    (format_trade 42 (RawTrade.mk (some "trade") none none none none none none none none)).qty = "0" ∧
    (format_trade 42 (RawTrade.mk (some "trade") none none none none none none none none)).symbol = "" :=
  ⟨(format_trade_total_defaults 42 _).1 rfl,
   (format_trade_total_defaults 42 _).2.1 rfl,
   (format_trade_total_defaults 42 _).2.2.1 rfl,
   (format_trade_total_defaults 42 _).2.2.2 rfl⟩

/-! ### Part 2: the Flink job (`src/flink-jobs/anomaly_detector.py`)

The job declares a Kafka source `trades_raw` with
`WATERMARK FOR rowtime AS rowtime - INTERVAL '5' SECOND`, a 10-second
tumbling-window aggregation view `windowed_trades` grouped by
`(symbol, exchange)`, and an insert into `alerts` filtered by
`volume > 1.0`.  The embedding below is the event-time tumbling-window
semantics of these SQL declarations: per key, the watermark is the
maximum observed event time minus 5000 ms; a record whose window end is
at or below the current watermark is late and dropped; otherwise it is
added to its window's accumulator; afterwards the watermark advances and
every open window whose end is at or below it fires exactly once (in
ascending window order) and is evicted. -/

/-- Window size: `INTERVAL '10' SECOND`, in milliseconds. -/
def windowSizeMs : Int := 10000

/-- Watermark delay: `INTERVAL '5' SECOND` (the allowed lateness), ms. -/
def watermarkDelayMs : Int := 5000

/-- A row of the `trades_raw` table (its eight declared columns), with the
`DOUBLE` casts of `price` and `qty` modelled as exact rationals. -/
structure Trade where
  ts : Int
  ingest_ts : Int
  exchange : String
  symbol : String
  trade_id : String
  side : String
  price : ℚ
  qty : ℚ
deriving DecidableEq

/-- Start of the tumbling window containing event time `t`:
`TUMBLE(rowtime, INTERVAL '10' SECOND)` assigns `t` to the window
starting at `floor(t / 10000) * 10000` (half-open on the right). -/
def wStart (t : Int) : Int := t / windowSizeMs * windowSizeMs

/-- End of the tumbling window containing event time `t`. -/
def wEnd (t : Int) : Int := wStart t + windowSizeMs

/-- An open window accumulator for one key: the window start together
with the running `COUNT`, `SUM(qty)` and `SUM(price)`. -/
structure WindowAcc where
  windowStart : Int
  count : Nat
  sumQty : ℚ
  sumPrice : ℚ
deriving DecidableEq

/-- Per-key engine state: the maximum observed event time (`none` before
the first record; the watermark is this minus 5000) and the open window
accumulators, kept sorted by ascending window start. -/
structure KeyState where
  maxEvent : Option Int
  accs : List WindowAcc
deriving DecidableEq

/-- Initial per-key state: no events seen, watermark at minus infinity. -/
def initState : KeyState := ⟨none, []⟩

/-- A row of the `windowed_trades` view: `TUMBLE_END`, the key, and the
two aggregates `SUM(CAST(qty AS DOUBLE))` and `AVG(CAST(price AS DOUBLE))`. -/
structure WindowResult where
  window_end : Int
  symbol : String
  exchange : String
  volume : ℚ
  avg_price : ℚ
deriving DecidableEq

/-- A record is late iff the window it belongs to ends at or below the
key's current watermark (max observed event time minus 5000 ms); such a
record's window has already fired and the record is dropped. -/
def isLate (s : KeyState) (t : Int) : Bool :=
  match s.maxEvent with
  | none => false
  | some m => decide (wEnd t ≤ m - watermarkDelayMs)

/-- Add a trade with window start `w`, price `p` and quantity `q` to the
sorted accumulator list: update the matching accumulator if one exists,
otherwise insert a fresh one in order. -/
def addTrade : List WindowAcc → Int → ℚ → ℚ → List WindowAcc
  | [], w, p, q => [⟨w, 1, q, p⟩]
  | a :: rest, w, p, q =>
      if w < a.windowStart then ⟨w, 1, q, p⟩ :: a :: rest
      else if w = a.windowStart then
        ⟨a.windowStart, a.count + 1, a.sumQty + q, a.sumPrice + p⟩ :: rest
      else a :: addTrade rest w p q

/-- Snapshot emitted when an accumulator's window fires: `volume` is the
quantity sum and `avg_price` the arithmetic mean of the prices. -/
def toResult (ex sym : String) (a : WindowAcc) : WindowResult :=
  ⟨a.windowStart + windowSizeMs, sym, ex, a.sumQty, a.sumPrice / (a.count : ℚ)⟩

/-- The max observed event time after seeing event time `t`. -/
def newMax (s : KeyState) (t : Int) : Int :=
  match s.maxEvent with
  | none => t
  | some m => max m t

/-- The accepting half of a step: with max observed event time `m1` and
updated accumulators `accs1`, fire (in ascending order) every window
whose end is at or below the new watermark `m1 - 5000` and keep the rest. -/
def stepAccept (ex sym : String) (m1 : Int) (accs1 : List WindowAcc) :
    KeyState × List WindowResult :=
  (⟨some m1,
    accs1.filter fun a => decide (¬ a.windowStart + windowSizeMs ≤ m1 - watermarkDelayMs)⟩,
   (accs1.filter fun a => decide (a.windowStart + windowSizeMs ≤ m1 - watermarkDelayMs)).map
     (toResult ex sym))

/-- Process one record for one key: drop it if late; otherwise add it to
its window, advance the max observed event time, and fire every closable
window.  Returns the new state and the fired window results. -/
def stepTrade (ex sym : String) (s : KeyState) (tr : Trade) :
    KeyState × List WindowResult :=
  if isLate s tr.ts then (s, [])
  else stepAccept ex sym (newMax s tr.ts)
    (addTrade s.accs (wStart tr.ts) tr.price tr.qty)

theorem stepTrade_late {s : KeyState} {tr : Trade} (ex sym : String)
    (hl : isLate s tr.ts = true) : stepTrade ex sym s tr = (s, []) := by
  simp [stepTrade, hl]

theorem stepTrade_accept {s : KeyState} {tr : Trade} (ex sym : String)
    (hl : isLate s tr.ts = false) :
    stepTrade ex sym s tr =
      stepAccept ex sym (newMax s tr.ts) (addTrade s.accs (wStart tr.ts) tr.price tr.qty) := by
  simp [stepTrade, hl]

/-- Run the per-key engine over a list of records from a given state,
collecting the fired window results in emission order. -/
def runFrom (ex sym : String) (s : KeyState) : List Trade → KeyState × List WindowResult
  | [] => (s, [])
  | tr :: rest =>
      let p := stepTrade ex sym s tr
      let r := runFrom ex sym p.1 rest
      (r.1, p.2 ++ r.2)

/-- The `GROUP BY symbol, exchange` key extraction: the subsequence of
the input stream belonging to one key. -/
def keyFilter (ex sym : String) (trades : List Trade) : List Trade :=
  trades.filter (fun t => t.exchange == ex && t.symbol == sym)

/-- The `windowed_trades` view for one `(symbol, exchange)` group: the
final state and the window results emitted for that key, in order. -/
def windowed_trades (trades : List Trade) (ex sym : String) :
    KeyState × List WindowResult :=
  runFrom ex sym initState (keyFilter ex sym trades)

/-- True iff no record of the run is dropped as late (every trade reaches
its window's accumulator before that window fires). -/
def noLateB (ex sym : String) : KeyState → List Trade → Bool
  | _, [] => true
  | s, tr :: rest => !(isLate s tr.ts) && noLateB ex sym (stepTrade ex sym s tr).1 rest

/-- A row of the `alerts` sink table (its six declared columns, with the
string-cast numeric columns kept as rationals). -/
structure AlertRecord where
  ts : Int
  symbol : String
  exchange : String
  signal : String
  volume : ℚ
  avg_price : ℚ
deriving DecidableEq

/-- The alert timestamp expression
`CAST(UNIX_TIMESTAMP(CAST(window_end AS STRING)) * 1000 AS BIGINT)`:
`UNIX_TIMESTAMP` parses the rendered timestamp at second precision, so
this truncates the window end to whole seconds before scaling back to
milliseconds. -/
def alertTs (window_end : Int) : Int := window_end / 1000 * 1000

/-- The alert row built from a `windowed_trades` row by the
`INSERT INTO alerts` select list: `signal` is the literal
`'volume_spike'`. -/
def alertOf (r : WindowResult) : AlertRecord :=
  ⟨alertTs r.window_end, r.symbol, r.exchange, "volume_spike", r.volume, r.avg_price⟩

/-- The `volume > 1.0` threshold of the `WHERE` clause. -/
def volumeThreshold : ℚ := 1

/-- Row-wise effect of the `INSERT INTO alerts ... WHERE volume > 1.0`
query: one alert for a window result above the threshold, none otherwise. -/
def evaluateResult (r : WindowResult) : List AlertRecord :=
  if volumeThreshold < r.volume then [alertOf r] else []

/-- All alert rows produced for one key over a run. -/
def alertRows (trades : List Trade) (ex sym : String) : List AlertRecord :=
  (((windowed_trades trades ex sym).2).map evaluateResult).flatten

/-! ### Part 2 helper lemmas -/

theorem windowSizeMs_dvd_wStart (t : Int) : windowSizeMs ∣ wStart t :=
  dvd_mul_left windowSizeMs (t / windowSizeMs)

/-- Membership in the half-open window `[w, w + windowSize)` is the same
as having window start `w`, for `w` a window boundary. -/
theorem wStart_eq_iff {t w : Int} (hw : windowSizeMs ∣ w) :
    wStart t = w ↔ (w ≤ t ∧ t < w + windowSizeMs) := by
  obtain ⟨k, rfl⟩ := hw
  simp only [wStart, windowSizeMs]
  omega

theorem wEnd_gt (t : Int) : t < wEnd t := by
  simp only [wEnd, wStart, windowSizeMs]
  omega

theorem wEnd_le (t : Int) : wEnd t ≤ t + windowSizeMs := by
  simp only [wEnd, wStart, windowSizeMs]
  omega

/-- Every accumulator produced by `addTrade` is an old one or sits at the
inserted window start. -/
theorem addTrade_mem_starts :
    ∀ (accs : List WindowAcc) (w : Int) (p q : ℚ) (b : WindowAcc),
      b ∈ addTrade accs w p q → b ∈ accs ∨ b.windowStart = w
  | [], w, p, q, b, hb => by
      simp only [addTrade, List.mem_singleton] at hb
      subst hb
      exact Or.inr rfl
  | a :: rest, w, p, q, b, hb => by
      by_cases h1 : w < a.windowStart
      · simp only [addTrade, if_pos h1, List.mem_cons] at hb
        rcases hb with rfl | hb
        · exact Or.inr rfl
        · exact Or.inl (by simpa using hb)
      · by_cases h2 : w = a.windowStart
        · simp only [addTrade, if_neg h1, if_pos h2, List.mem_cons] at hb
          rcases hb with rfl | hb
          · exact Or.inr h2.symm
          · exact Or.inl (List.mem_cons_of_mem a hb)
        · simp only [addTrade, if_neg h1, if_neg h2, List.mem_cons] at hb
          rcases hb with rfl | hb
          · exact Or.inl (List.mem_cons_self b rest)
          · rcases addTrade_mem_starts rest w p q b hb with h | h
            · exact Or.inl (List.mem_cons_of_mem a h)
            · exact Or.inr h

/-- `addTrade` keeps the accumulator list strictly sorted by window start. -/
theorem addTrade_pairwise :
    ∀ (accs : List WindowAcc) (w : Int) (p q : ℚ),
      accs.Pairwise (fun x y => x.windowStart < y.windowStart) →
      (addTrade accs w p q).Pairwise (fun x y => x.windowStart < y.windowStart)
  | [], w, p, q, _ => by simp [addTrade]
  | a :: rest, w, p, q, h => by
      rw [List.pairwise_cons] at h
      obtain ⟨ha, hrest⟩ := h
      by_cases h1 : w < a.windowStart
      · simp only [addTrade, if_pos h1]
        refine List.Pairwise.cons ?_ (List.Pairwise.cons ha hrest)
        intro b hb
        rcases List.mem_cons.1 hb with rfl | hb
        · exact h1
        · exact lt_trans h1 (ha b hb)
      · by_cases h2 : w = a.windowStart
        · simp only [addTrade, if_neg h1, if_pos h2]
          exact List.Pairwise.cons ha hrest
        · simp only [addTrade, if_neg h1, if_neg h2]
          refine List.Pairwise.cons ?_ (addTrade_pairwise rest w p q hrest)
          intro b hb
          rcases addTrade_mem_starts rest w p q b hb with h | h
          · exact ha b h
          · rw [h]
            omega
  
/-- An accumulator untouched by the insertion stays in the list. -/
theorem addTrade_mem_of_mem_ne :
    ∀ (accs : List WindowAcc) (w : Int) (p q : ℚ) (b : WindowAcc),
      b ∈ accs → b.windowStart ≠ w → b ∈ addTrade accs w p q
  | [], _, _, _, _, hb, _ => absurd hb (List.not_mem_nil _)
  | a :: rest, w, p, q, b, hb, hne => by
      by_cases h1 : w < a.windowStart
      · simp only [addTrade, if_pos h1]
        exact List.mem_cons_of_mem _ hb
      · by_cases h2 : w = a.windowStart
        · simp only [addTrade, if_neg h1, if_pos h2]
          rcases List.mem_cons.1 hb with rfl | hb
          · exact absurd h2.symm hne
          · exact List.mem_cons_of_mem _ hb
        · simp only [addTrade, if_neg h1, if_neg h2]
          rcases List.mem_cons.1 hb with rfl | hb
          · exact List.mem_cons_self b _
          · exact List.mem_cons_of_mem a (addTrade_mem_of_mem_ne rest w p q b hb hne)

/-- The inserted window start is always present after `addTrade`. -/
theorem addTrade_exists_start :
    ∀ (accs : List WindowAcc) (w : Int) (p q : ℚ),
      ∃ b, b ∈ addTrade accs w p q ∧ b.windowStart = w
  | [], w, p, q => ⟨⟨w, 1, q, p⟩, List.mem_singleton_self _, rfl⟩
  | a :: rest, w, p, q => by
      by_cases h1 : w < a.windowStart
      · exact ⟨⟨w, 1, q, p⟩, by simp [addTrade, if_pos h1], rfl⟩
      · by_cases h2 : w = a.windowStart
        · refine ⟨⟨a.windowStart, a.count + 1, a.sumQty + q, a.sumPrice + p⟩, ?_, h2.symm⟩
          simp [addTrade, if_neg h1, if_pos h2]
        · obtain ⟨b, hb, hbw⟩ := addTrade_exists_start rest w p q
          exact ⟨b, by simp [addTrade, if_neg h1, if_neg h2, List.mem_cons, hb], hbw⟩

/-- Case analysis for membership after `addTrade` (for a sorted list):
an untouched old accumulator, the updated accumulator of the trade's
window, or a freshly created one when the window was not yet open. -/
theorem addTrade_mem_cases :
    ∀ (accs : List WindowAcc) (w : Int) (p q : ℚ) (b : WindowAcc),
      accs.Pairwise (fun x y => x.windowStart < y.windowStart) →
      b ∈ addTrade accs w p q →
      (b ∈ accs ∧ b.windowStart ≠ w) ∨
      (∃ a, a ∈ accs ∧ a.windowStart = w ∧
        b = ⟨w, a.count + 1, a.sumQty + q, a.sumPrice + p⟩) ∨
      ((∀ a ∈ accs, a.windowStart ≠ w) ∧ b = ⟨w, 1, q, p⟩)
  | [], w, p, q, b, _, hb => by
      simp only [addTrade, List.mem_singleton] at hb
      exact Or.inr (Or.inr ⟨by simp, hb⟩)
  | a :: rest, w, p, q, b, hs, hb => by
      rw [List.pairwise_cons] at hs
      obtain ⟨ha, hrest⟩ := hs
      by_cases h1 : w < a.windowStart
      · simp only [addTrade, if_pos h1, List.mem_cons] at hb
        rcases hb with rfl | hb
        · refine Or.inr (Or.inr ⟨?_, rfl⟩)
          intro a' ha'
          rcases List.mem_cons.1 ha' with rfl | ha'
          · omega
          · have := ha a' ha'
            omega
        · rcases hb with rfl | hb
          · exact Or.inl ⟨List.mem_cons_self _ _, by omega⟩
          · have := ha b hb
            exact Or.inl ⟨List.mem_cons_of_mem _ hb, by omega⟩
      · by_cases h2 : w = a.windowStart
        · simp only [addTrade, if_neg h1, if_pos h2, List.mem_cons] at hb
          rcases hb with rfl | hb
          · exact Or.inr (Or.inl ⟨a, List.mem_cons_self _ _, h2.symm, by rw [h2]⟩)
          · exact Or.inl ⟨List.mem_cons_of_mem _ hb, by
              have hb' := ha b hb
              omega⟩
        · simp only [addTrade, if_neg h1, if_neg h2, List.mem_cons] at hb
          rcases hb with rfl | hb
          · exact Or.inl ⟨List.mem_cons_self _ _, by omega⟩
          · rcases addTrade_mem_cases rest w p q b hrest hb with h | h | h
            · exact Or.inl ⟨List.mem_cons_of_mem _ h.1, h.2⟩
            · obtain ⟨a', ha', hw', hb'⟩ := h
              exact Or.inr (Or.inl ⟨a', List.mem_cons_of_mem _ ha', hw', hb'⟩)
            · refine Or.inr (Or.inr ⟨?_, h.2⟩)
              intro a' ha'
              rcases List.mem_cons.1 ha' with rfl | ha'
              · omega
              · exact h.1 a' ha'

/-- Accumulator lists are kept strictly sorted by window start. -/
def sortedStarts (l : List WindowAcc) : Prop :=
  l.Pairwise fun x y => x.windowStart < y.windowStart

/-- Engine invariant for one key: accumulators are sorted, aligned to the
window grid and non-empty; every open window ends strictly above the
watermark; emitted window ends are grid-aligned, strictly increasing and
at or below the watermark. -/
def EngineInv (s : KeyState) (em : List WindowResult) : Prop :=
  sortedStarts s.accs ∧
  (∀ a ∈ s.accs, windowSizeMs ∣ a.windowStart ∧ 0 < a.count) ∧
  (em.map fun r => r.window_end).Pairwise (· < ·) ∧
  (∀ r ∈ em, windowSizeMs ∣ r.window_end) ∧
  (match s.maxEvent with
   | none => s.accs = [] ∧ em = []
   | some m =>
       (∀ a ∈ s.accs, m - watermarkDelayMs < a.windowStart + windowSizeMs) ∧
       (∀ r ∈ em, r.window_end ≤ m - watermarkDelayMs))

theorem inv_init : EngineInv initState [] := by
  refine ⟨List.Pairwise.nil, ?_, List.Pairwise.nil, ?_, ?_⟩ <;> simp [initState]


/-- Closing windows at watermark `m1 - 5000` preserves the invariant,
given well-formed sorted accumulators whose windows all end above every
already-emitted window end. -/
theorem inv_stepAccept (ex sym : String) (m1 : Int) (accs1 : List WindowAcc)
    (em : List WindowResult)
    (hsort1 : sortedStarts accs1)
    (hub : ∀ b ∈ accs1, windowSizeMs ∣ b.windowStart ∧ 0 < b.count)
    (hpe : (em.map fun r => r.window_end).Pairwise (· < ·))
    (hde : ∀ r ∈ em, windowSizeMs ∣ r.window_end)
    (hemb : ∀ r ∈ em, r.window_end ≤ m1 - watermarkDelayMs)
    (hcross : ∀ r ∈ em, ∀ b ∈ accs1, r.window_end < b.windowStart + windowSizeMs) :
    EngineInv (stepAccept ex sym m1 accs1).1 (em ++ (stepAccept ex sym m1 accs1).2) := by
  simp only [stepAccept]
  refine ⟨?_, ?_, ?_, ?_, ?_, ?_⟩
  · exact List.Pairwise.filter _ hsort1
  · intro a ha
    exact hub a (List.mem_filter.1 ha).1
  · rw [List.map_append, List.pairwise_append]
    refine ⟨hpe, ?_, ?_⟩
    · rw [List.map_map]
      refine List.Pairwise.map _ ?_ (List.Pairwise.filter _ hsort1)
      intro a b hab
      simp only [Function.comp_apply, toResult]
      omega
    · intro x hx y hy
      obtain ⟨r, hr, rfl⟩ := List.mem_map.1 hx
      rw [List.map_map] at hy
      obtain ⟨b, hb, rfl⟩ := List.mem_map.1 hy
      have h1 := hcross r hr b (List.mem_filter.1 hb).1
      simpa [Function.comp, toResult] using h1
  · intro r hr
    rcases List.mem_append.1 hr with hr | hr
    · exact hde r hr
    · obtain ⟨b, hb, rfl⟩ := List.mem_map.1 hr
      simp only [toResult]
      exact dvd_add (hub b (List.mem_filter.1 hb).1).1 dvd_rfl
  · intro a ha
    have h2 := (List.mem_filter.1 ha).2
    simp only [decide_eq_true_eq] at h2
    omega
  · intro r hr
    rcases List.mem_append.1 hr with hr | hr
    · exact hemb r hr
    · obtain ⟨b, hb, rfl⟩ := List.mem_map.1 hr
      have h2 := (List.mem_filter.1 hb).2
      simp only [decide_eq_true_eq] at h2
      simpa [toResult] using h2

/-- One engine step preserves the invariant. -/
theorem inv_step (ex sym : String) (s : KeyState) (em : List WindowResult) (tr : Trade)
    (h : EngineInv s em) :
    EngineInv (stepTrade ex sym s tr).1 (em ++ (stepTrade ex sym s tr).2) := by
  obtain ⟨hsort, hwf, hpe, hde, hm⟩ := h
  obtain ⟨mx, accs⟩ := s
  cases hl : isLate ⟨mx, accs⟩ tr.ts with
  | true =>
      rw [stepTrade_late ex sym hl, List.append_nil]
      exact ⟨hsort, hwf, hpe, hde, hm⟩
  | false =>
      rw [stepTrade_accept ex sym hl]
      have hwend := wEnd_gt tr.ts
      simp only [wEnd] at hwend
      have hdpos : (0 : Int) < watermarkDelayMs := by norm_num [watermarkDelayMs]
      have hsort1 : sortedStarts (addTrade accs (wStart tr.ts) tr.price tr.qty) :=
        addTrade_pairwise accs _ _ _ hsort
      have hub : ∀ b ∈ addTrade accs (wStart tr.ts) tr.price tr.qty,
          windowSizeMs ∣ b.windowStart ∧ 0 < b.count := by
        intro b hb
        rcases addTrade_mem_cases accs _ _ _ b hsort hb with hb1 | ⟨a, _, _, rfl⟩ | ⟨_, rfl⟩
        · exact hwf b hb1.1
        · exact ⟨windowSizeMs_dvd_wStart tr.ts, Nat.succ_pos _⟩
        · exact ⟨windowSizeMs_dvd_wStart tr.ts, Nat.one_pos⟩
      cases mx with
      | none =>
          obtain ⟨hacc, hem⟩ := hm
          subst hacc
          subst hem
          refine inv_stepAccept ex sym _ _ _ hsort1 hub hpe hde ?_ ?_ <;> intro r hr <;>
            simp at hr
      | some m =>
          have hnl : ¬ (wStart tr.ts + windowSizeMs ≤ m - watermarkDelayMs) := by
            have := hl
            simp only [isLate, wEnd, decide_eq_false_iff_not] at this
            exact this
          obtain ⟨hma, hme⟩ := hm
          refine inv_stepAccept ex sym _ _ _ hsort1 hub hpe hde ?_ ?_
          · intro r hr
            have h1 := hme r hr
            have h2 : m ≤ newMax ⟨some m, accs⟩ tr.ts := le_max_left _ _
            omega
          · intro r hr b hb
            have h1 := hme r hr
            rcases addTrade_mem_starts accs _ _ _ b hb with hb1 | hb1
            · have := hma b hb1
              omega
            · rw [hb1]
              omega

/-- The invariant holds along any run from an invariant state. -/
theorem inv_runFrom (ex sym : String) :
    ∀ (l : List Trade) (s : KeyState) (em : List WindowResult), EngineInv s em →
      EngineInv (runFrom ex sym s l).1 (em ++ (runFrom ex sym s l).2)
  | [], s, em, h => by simpa [runFrom] using h
  | tr :: rest, s, em, h => by
      have h1 := inv_step ex sym s em tr h
      have h2 := inv_runFrom ex sym rest (stepTrade ex sym s tr).1
        (em ++ (stepTrade ex sym s tr).2) h1
      simpa [runFrom, List.append_assoc] using h2

/-- The invariant holds of every per-key run of the `windowed_trades`
view from the initial state. -/
theorem inv_windowed_trades (trades : List Trade) (ex sym : String) :
    EngineInv (windowed_trades trades ex sym).1 (windowed_trades trades ex sym).2 := by
  have h := inv_runFrom ex sym (keyFilter ex sym trades) initState [] inv_init
  simpa [windowed_trades] using h

/-- C2: for every key, no two window results emitted over an entire run
share a window end (equivalently a window start) — once a window has
fired and been evicted, any record that could touch it again is late and
dropped, so each `(exchange, symbol, windowStart)` fires at most once. -/
theorem window_result_emitted_at_most_once (trades : List Trade) (ex sym : String) :
    ((windowed_trades trades ex sym).2).Pairwise
      (fun r₁ r₂ => r₁.window_end ≠ r₂.window_end) := by
  have h := (inv_windowed_trades trades ex sym).2.2.1
  have h2 := (List.pairwise_map).1 h
  exact h2.imp (fun hlt => ne_of_lt hlt)

/-- C6: every alert built from an emitted window result carries
`ts = window_end`: emitted window ends are multiples of 10000 ms, so the
second-precision round trip `UNIX_TIMESTAMP(CAST(window_end AS STRING)) * 1000`
is the identity on them. -/
theorem alert_ts_equals_window_end (trades : List Trade) (ex sym : String)
    (r : WindowResult) (hr : r ∈ (windowed_trades trades ex sym).2) :
    (alertOf r).ts = r.window_end := by
  have hdvd := (inv_windowed_trades trades ex sym).2.2.2.1 r hr
  obtain ⟨k, hk⟩ := hdvd
  simp only [alertOf, alertTs, hk, windowSizeMs]
  omega

/-- C6 witness: a two-trade run emits the window result ending at 20000
and the alert built from it has `ts = 20000`. -/
theorem alert_ts_equals_window_end_witness :
    (⟨20000, "BTCUSDT", "binance", 1, 100⟩ : WindowResult) ∈
      (windowed_trades [⟨14000, 14000, "binance", "BTCUSDT", "1", "buy", 100, 1⟩,
        ⟨30000, 30000, "binance", "BTCUSDT", "2", "buy", 100, 1⟩] "binance" "BTCUSDT").2 ∧
    (alertOf (⟨20000, "BTCUSDT", "binance", 1, 100⟩ : WindowResult)).ts = 20000 := by
  have hmem : (⟨20000, "BTCUSDT", "binance", 1, 100⟩ : WindowResult) ∈
      (windowed_trades [⟨14000, 14000, "binance", "BTCUSDT", "1", "buy", 100, 1⟩,
        ⟨30000, 30000, "binance", "BTCUSDT", "2", "buy", 100, 1⟩] "binance" "BTCUSDT").2 := by
    norm_num [windowed_trades, keyFilter, runFrom, stepTrade, stepAccept, newMax, isLate,
      addTrade, toResult, wStart, wEnd, windowSizeMs, watermarkDelayMs, initState, List.filter]
  exact ⟨hmem, alert_ts_equals_window_end _ "binance" "BTCUSDT" _ hmem⟩

/-! ### Exact-aggregation invariant (for C1) -/

/-- The trades of a list whose tumbling window starts at `w`. -/
def tradesInWindow (w : Int) (l : List Trade) : List Trade :=
  l.filter fun t => decide (wStart t.ts = w)

/-- The trades of a list whose event time lies in `[lo, hi)`. -/
def tradesInInterval (lo hi : Int) (l : List Trade) : List Trade :=
  l.filter fun t => decide (lo ≤ t.ts ∧ t.ts < hi)

/-- Sum of the quantities of a list of trades. -/
def qtySum (l : List Trade) : ℚ := (l.map fun t => t.qty).sum

/-- Sum of the prices of a list of trades. -/
def priceSum (l : List Trade) : ℚ := (l.map fun t => t.price).sum

/-- An accumulator holds exactly the count and sums of the processed
trades of its window. -/
def accExact (l : List Trade) (a : WindowAcc) : Prop :=
  a.count = (tradesInWindow a.windowStart l).length ∧
  a.sumQty = qtySum (tradesInWindow a.windowStart l) ∧
  a.sumPrice = priceSum (tradesInWindow a.windowStart l)

/-- A window result aggregates exactly the processed trades of its
window: the volume is their quantity sum and the average price the
arithmetic mean of their prices. -/
def resExact (l : List Trade) (r : WindowResult) : Prop :=
  tradesInWindow (r.window_end - windowSizeMs) l ≠ [] ∧
  r.volume = qtySum (tradesInWindow (r.window_end - windowSizeMs) l) ∧
  r.avg_price = priceSum (tradesInWindow (r.window_end - windowSizeMs) l) /
    ((tradesInWindow (r.window_end - windowSizeMs) l).length : ℚ)

/-- Content invariant: open accumulators and emitted results aggregate
exactly the trades processed so far, and every window that has received a
trade is either still open or already emitted. -/
def ContentInv (l : List Trade) (s : KeyState) (em : List WindowResult) : Prop :=
  (∀ a ∈ s.accs, accExact l a) ∧
  (∀ r ∈ em, resExact l r) ∧
  (∀ w : Int, tradesInWindow w l ≠ [] →
    (∃ a ∈ s.accs, a.windowStart = w) ∨ (∃ r ∈ em, r.window_end = w + windowSizeMs))

theorem content_init : ContentInv [] initState [] := by
  refine ⟨?_, ?_, ?_⟩ <;> simp [initState, tradesInWindow]

theorem tradesInWindow_append_self {tr : Trade} {w : Int} (l : List Trade)
    (h : wStart tr.ts = w) :
    tradesInWindow w (l ++ [tr]) = tradesInWindow w l ++ [tr] := by
  simp [tradesInWindow, List.filter_append, h]

theorem tradesInWindow_append_ne {tr : Trade} {w : Int} (l : List Trade)
    (h : wStart tr.ts ≠ w) :
    tradesInWindow w (l ++ [tr]) = tradesInWindow w l := by
  simp [tradesInWindow, List.filter_append, h]

theorem qtySum_append_one (l : List Trade) (tr : Trade) :
    qtySum (l ++ [tr]) = qtySum l + tr.qty := by
  simp [qtySum]

theorem priceSum_append_one (l : List Trade) (tr : Trade) :
    priceSum (l ++ [tr]) = priceSum l + tr.price := by
  simp [priceSum]

/-- One accepting engine step preserves the content invariant. -/
theorem content_step (ex sym : String) (s : KeyState) (em : List WindowResult)
    (l : List Trade) (tr : Trade)
    (hI : EngineInv s em) (hC : ContentInv l s em) (hl : isLate s tr.ts = false) :
    ContentInv (l ++ [tr]) (stepTrade ex sym s tr).1 (em ++ (stepTrade ex sym s tr).2) := by
  obtain ⟨hsort, hwf, hpe, hde, hm⟩ := hI
  obtain ⟨hCa, hCr, hCw⟩ := hC
  obtain ⟨mx, accs⟩ := s
  rw [stepTrade_accept ex sym hl]
  have hwend := wEnd_gt tr.ts
  simp only [wEnd] at hwend
  have hnotem : ∀ r ∈ em, r.window_end ≠ wStart tr.ts + windowSizeMs := by
    intro r hr
    cases mx with
    | none =>
        rw [hm.2] at hr
        exact absurd hr (List.not_mem_nil r)
    | some m =>
        have h1 := hm.2 r hr
        have h2 : ¬ (wStart tr.ts + windowSizeMs ≤ m - watermarkDelayMs) := by
          have := hl
          simp only [isLate, wEnd, decide_eq_false_iff_not] at this
          exact this
        omega
  have haccs1 : ∀ b ∈ addTrade accs (wStart tr.ts) tr.price tr.qty,
      accExact (l ++ [tr]) b := by
    intro b hb
    rcases addTrade_mem_cases accs _ _ _ b hsort hb with
      ⟨hmem, hne⟩ | ⟨a, ha, hwa, rfl⟩ | ⟨hnone, rfl⟩
    · obtain ⟨h1, h2, h3⟩ := hCa b hmem
      have hne' : wStart tr.ts ≠ b.windowStart := fun hh => hne hh.symm
      exact ⟨by rw [tradesInWindow_append_ne l hne', ← h1],
             by rw [tradesInWindow_append_ne l hne', ← h2],
             by rw [tradesInWindow_append_ne l hne', ← h3]⟩
    · obtain ⟨h1, h2, h3⟩ := hCa a ha
      rw [hwa] at h1 h2 h3
      refine ⟨?_, ?_, ?_⟩ <;>
        simp only [tradesInWindow_append_self l rfl, List.length_append,
          qtySum_append_one, priceSum_append_one, List.length_singleton]
      · rw [h1]
      · rw [h2]
      · rw [h3]
    · have hempty : tradesInWindow (wStart tr.ts) l = [] := by
        by_contra hne
        rcases hCw _ hne with ⟨a, ha, hwa⟩ | ⟨r, hr, hre⟩
        · exact hnone a ha hwa
        · exact hnotem r hr hre
      refine ⟨?_, ?_, ?_⟩ <;>
        simp [tradesInWindow_append_self l rfl, hempty, qtySum, priceSum]
  have hres : ∀ r ∈ em, resExact (l ++ [tr]) r := by
    intro r hr
    obtain ⟨h1, h2, h3⟩ := hCr r hr
    have hne : wStart tr.ts ≠ r.window_end - windowSizeMs := by
      have := hnotem r hr
      omega
    rw [resExact, tradesInWindow_append_ne l hne]
    exact ⟨h1, h2, h3⟩
  have hpos : ∀ b ∈ addTrade accs (wStart tr.ts) tr.price tr.qty, 0 < b.count := by
    intro b hb
    rcases addTrade_mem_cases accs _ _ _ b hsort hb with hb1 | ⟨a, _, _, rfl⟩ | ⟨_, rfl⟩
    · exact (hwf b hb1.1).2
    · exact Nat.succ_pos _
    · exact Nat.one_pos
  refine ⟨?_, ?_, ?_⟩
  · intro a ha
    simp only [stepAccept] at ha
    exact haccs1 a (List.mem_filter.1 ha).1
  · intro r hr
    simp only [stepAccept] at hr
    rcases List.mem_append.1 hr with hr | hr
    · exact hres r hr
    · obtain ⟨b, hb, rfl⟩ := List.mem_map.1 hr
      have hbacc := (List.mem_filter.1 hb).1
      obtain ⟨h1, h2, h3⟩ := haccs1 b hbacc
      have hbpos := hpos b hbacc
      have hwe : (toResult ex sym b).window_end - windowSizeMs = b.windowStart := by
        simp [toResult]
      refine ⟨?_, ?_, ?_⟩
      · rw [hwe]
        apply List.ne_nil_of_length_pos
        omega
      · rw [hwe]
        simpa [toResult] using h2
      · rw [hwe]
        simp only [toResult]
        rw [h3, h1]
  · intro w' hw'
    by_cases hww : w' = wStart tr.ts
    · subst hww
      obtain ⟨b, hb, hbw⟩ := addTrade_exists_start accs (wStart tr.ts) tr.price tr.qty
      by_cases hcl : b.windowStart + windowSizeMs ≤ newMax ⟨mx, accs⟩ tr.ts - watermarkDelayMs
      · right
        refine ⟨toResult ex sym b, ?_, ?_⟩
        · simp only [stepAccept]
          exact List.mem_append_right _
            (List.mem_map_of_mem _ (List.mem_filter.2 ⟨hb, by simpa using hcl⟩))
        · simp [toResult, hbw]
      · left
        refine ⟨b, ?_, hbw⟩
        simp only [stepAccept]
        exact List.mem_filter.2 ⟨hb, by simpa using hcl⟩
    · have hne : wStart tr.ts ≠ w' := fun hh => hww hh.symm
      rw [tradesInWindow_append_ne l hne] at hw'
      rcases hCw w' hw' with ⟨a, ha, hwa⟩ | ⟨r, hr, hre⟩
      · have ha1 : a ∈ addTrade accs (wStart tr.ts) tr.price tr.qty :=
          addTrade_mem_of_mem_ne accs _ _ _ a ha (by rw [hwa]; exact hww)
        by_cases hcl : a.windowStart + windowSizeMs ≤ newMax ⟨mx, accs⟩ tr.ts - watermarkDelayMs
        · right
          refine ⟨toResult ex sym a, ?_, ?_⟩
          · simp only [stepAccept]
            exact List.mem_append_right _
              (List.mem_map_of_mem _ (List.mem_filter.2 ⟨ha1, by simpa using hcl⟩))
          · simp [toResult, hwa]
        · left
          refine ⟨a, ?_, hwa⟩
          simp only [stepAccept]
          exact List.mem_filter.2 ⟨ha1, by simpa using hcl⟩
      · right
        exact ⟨r, by simp only [stepAccept]; exact List.mem_append_left _ hr, hre⟩

/-- Along a run in which no record is late, the content invariant is
preserved from any invariant state. -/
theorem content_runFrom (ex sym : String) :
    ∀ (l2 : List Trade) (s : KeyState) (em : List WindowResult) (l1 : List Trade),
      EngineInv s em → ContentInv l1 s em → noLateB ex sym s l2 = true →
      ContentInv (l1 ++ l2) (runFrom ex sym s l2).1 (em ++ (runFrom ex sym s l2).2)
  | [], s, em, l1, _, hC, _ => by simpa [runFrom] using hC
  | tr :: rest, s, em, l1, hI, hC, hnl => by
      rw [noLateB, Bool.and_eq_true] at hnl
      have hf : isLate s tr.ts = false := by
        have := hnl.1
        simp only [Bool.not_eq_true'] at this
        exact this
      have hI1 := inv_step ex sym s em tr hI
      have hC1 := content_step ex sym s em l1 tr hI hC hf
      have h2 := content_runFrom ex sym rest (stepTrade ex sym s tr).1
        (em ++ (stepTrade ex sym s tr).2) (l1 ++ [tr]) hI1 hC1 hnl.2
      simpa [runFrom, List.append_assoc] using h2

/-- C1: for every key and every run in which no record is dropped as
late, each emitted window result aggregates exactly the key's trades
whose event time lies in the half-open interval
`[windowStart, windowStart + windowSize)`: its `volume` is the sum of
their quantities and its `avg_price` the arithmetic mean (not
volume-weighted) of their prices.  In particular a trade with event time
equal to `windowStart` (the left endpoint, which the interval contains)
counts towards the window starting there, never the preceding one. -/
theorem window_result_aggregates_interval_trades (trades : List Trade) (ex sym : String)
    (hnl : noLateB ex sym initState (keyFilter ex sym trades) = true)
    (r : WindowResult) (hr : r ∈ (windowed_trades trades ex sym).2) :
    tradesInInterval (r.window_end - windowSizeMs) r.window_end (keyFilter ex sym trades) ≠ [] ∧
    r.volume =
      qtySum (tradesInInterval (r.window_end - windowSizeMs) r.window_end
        (keyFilter ex sym trades)) ∧
    r.avg_price =
      priceSum (tradesInInterval (r.window_end - windowSizeMs) r.window_end
          (keyFilter ex sym trades)) /
        ((tradesInInterval (r.window_end - windowSizeMs) r.window_end
          (keyFilter ex sym trades)).length : ℚ) := by
  have hC := content_runFrom ex sym (keyFilter ex sym trades) initState [] []
    inv_init content_init hnl
  have hres := hC.2.1 r (by simpa [windowed_trades] using hr)
  have hdvd := (inv_windowed_trades trades ex sym).2.2.2.1 r hr
  have hdvd' : windowSizeMs ∣ (r.window_end - windowSizeMs) := hdvd.sub dvd_rfl
  have hfeq : tradesInWindow (r.window_end - windowSizeMs) (keyFilter ex sym trades) =
      tradesInInterval (r.window_end - windowSizeMs) r.window_end (keyFilter ex sym trades) := by
    rw [tradesInWindow, tradesInInterval]
    apply List.filter_congr
    intro t _
    have hiff := wStart_eq_iff (t := t.ts) hdvd'
    rw [decide_eq_decide]
    rw [hiff]
    constructor
    · rintro ⟨h1, h2⟩
      exact ⟨h1, by omega⟩
    · rintro ⟨h1, h2⟩
      exact ⟨h1, by omega⟩
  rw [← hfeq]
  simpa using hres

/-- C1 witness: a no-late two-trade run for key `(binance, BTCUSDT)`
emits the window result ending at 10000 with volume 2, and that result
aggregates exactly the single in-window trade. -/
theorem window_result_aggregates_interval_trades_witness :
    noLateB "binance" "BTCUSDT" initState
      (keyFilter "binance" "BTCUSDT"
        [⟨1000, 1000, "binance", "BTCUSDT", "1", "buy", 100, 2⟩,
         ⟨16000, 16000, "binance", "BTCUSDT", "2", "buy", 100, 1⟩]) = true ∧
    (⟨10000, "BTCUSDT", "binance", 2, 100⟩ : WindowResult) ∈
      (windowed_trades
        [⟨1000, 1000, "binance", "BTCUSDT", "1", "buy", 100, 2⟩,
         ⟨16000, 16000, "binance", "BTCUSDT", "2", "buy", 100, 1⟩] "binance" "BTCUSDT").2 ∧
    (tradesInInterval (10000 - windowSizeMs) 10000
      (keyFilter "binance" "BTCUSDT"
        [⟨1000, 1000, "binance", "BTCUSDT", "1", "buy", 100, 2⟩,
         ⟨16000, 16000, "binance", "BTCUSDT", "2", "buy", 100, 1⟩]) ≠ [] ∧
     (2 : ℚ) = qtySum (tradesInInterval (10000 - windowSizeMs) 10000
      (keyFilter "binance" "BTCUSDT"
        [⟨1000, 1000, "binance", "BTCUSDT", "1", "buy", 100, 2⟩,
         ⟨16000, 16000, "binance", "BTCUSDT", "2", "buy", 100, 1⟩])) ∧
     (100 : ℚ) = priceSum (tradesInInterval (10000 - windowSizeMs) 10000
      (keyFilter "binance" "BTCUSDT"
        [⟨1000, 1000, "binance", "BTCUSDT", "1", "buy", 100, 2⟩,
         ⟨16000, 16000, "binance", "BTCUSDT", "2", "buy", 100, 1⟩])) /
       ((tradesInInterval (10000 - windowSizeMs) 10000
      (keyFilter "binance" "BTCUSDT"
        [⟨1000, 1000, "binance", "BTCUSDT", "1", "buy", 100, 2⟩,
         ⟨16000, 16000, "binance", "BTCUSDT", "2", "buy", 100, 1⟩])).length : ℚ)) := by
  have hnl : noLateB "binance" "BTCUSDT" initState
      (keyFilter "binance" "BTCUSDT"
        [⟨1000, 1000, "binance", "BTCUSDT", "1", "buy", 100, 2⟩,
         ⟨16000, 16000, "binance", "BTCUSDT", "2", "buy", 100, 1⟩]) = true := by decide
  have hmem : (⟨10000, "BTCUSDT", "binance", 2, 100⟩ : WindowResult) ∈
      (windowed_trades
        [⟨1000, 1000, "binance", "BTCUSDT", "1", "buy", 100, 2⟩,
         ⟨16000, 16000, "binance", "BTCUSDT", "2", "buy", 100, 1⟩] "binance" "BTCUSDT").2 := by
    norm_num [windowed_trades, keyFilter, runFrom, stepTrade, stepAccept, newMax, isLate,
      addTrade, toResult, wStart, wEnd, windowSizeMs, watermarkDelayMs, initState, List.filter]
  exact ⟨hnl, hmem,
    window_result_aggregates_interval_trades _ "binance" "BTCUSDT" hnl _ hmem⟩

/-- C4 counterexample: the second trade arrives with event time 3999,
which is 5001 ms — more than the allowed lateness of 5000 ms — behind the
key's current watermark `14000 - 5000 = 9000`, so by the claim it must be
dropped and contribute to no window result.  The engine accepts it (its
window `[0, 10000)` has not yet been closed, as `10000 > 9000`) and it
becomes the entire volume 5 of the emitted result for that window. -/
theorem late_trade_claim_counterexample :
    ((runFrom "binance" "BTCUSDT" initState
        [⟨14000, 14000, "binance", "BTCUSDT", "1", "buy", 100, 1⟩]).1).maxEvent =
      some 14000 ∧
    (3999 : Int) < (14000 - watermarkDelayMs) - watermarkDelayMs ∧
    isLate ((runFrom "binance" "BTCUSDT" initState
        [⟨14000, 14000, "binance", "BTCUSDT", "1", "buy", 100, 1⟩]).1) 3999 = false ∧
    ((windowed_trades [⟨14000, 14000, "binance", "BTCUSDT", "1", "buy", 100, 1⟩,
        ⟨3999, 3999, "binance", "BTCUSDT", "2", "buy", 100, 5⟩,
        ⟨30000, 30000, "binance", "BTCUSDT", "3", "buy", 100, 1⟩] "binance" "BTCUSDT").2).map
      (fun r => (r.window_end, r.volume)) = [(10000, (5 : ℚ)), (20000, 1)] := by
  refine ⟨by decide, by decide, by decide, by decide⟩

/-- C4 (amended): a trade is dropped iff its window has already been
closed by the key's watermark, i.e. iff
`windowEnd(eventTime) ≤ maxObservedEventTime - allowedLateness`; a
dropped trade leaves the state unchanged and is removed from the run
without any effect, so it contributes to no window result and never
retroactively changes an emitted one.  (Being more than the allowed
lateness behind the watermark is *not* sufficient for dropping: the
trade's 10 s window may still be open, as the counterexample shows.) -/
theorem late_trade_dropped_no_effect (ex sym : String) (s : KeyState) (tr : Trade)
    (hl : isLate s tr.ts = true) :
    stepTrade ex sym s tr = (s, []) ∧
    (∀ rest : List Trade, runFrom ex sym s (tr :: rest) = runFrom ex sym s rest) ∧
    ∀ m, s.maxEvent = some m → wEnd tr.ts ≤ m - watermarkDelayMs := by
  refine ⟨stepTrade_late ex sym hl, ?_, ?_⟩
  · intro rest
    simp [runFrom, stepTrade_late ex sym hl]
  · intro m hme
    rw [isLate, hme, decide_eq_true_eq] at hl
    exact hl

/-- C4 witness: with watermark `20000 - 5000 = 15000`, a trade at event
time 3000 (window end 10000 ≤ 15000) is late and its step is a no-op. -/
theorem late_trade_dropped_no_effect_witness :
    isLate (⟨some 20000, []⟩ : KeyState)
      ((⟨3000, 3000, "binance", "BTCUSDT", "1", "buy", 100, 1⟩ : Trade)).ts = true ∧
    stepTrade "binance" "BTCUSDT" (⟨some 20000, []⟩ : KeyState)
      ⟨3000, 3000, "binance", "BTCUSDT", "1", "buy", 100, 1⟩ = (⟨some 20000, []⟩, []) :=
  ⟨by decide,
   (late_trade_dropped_no_effect "binance" "BTCUSDT" ⟨some 20000, []⟩
      ⟨3000, 3000, "binance", "BTCUSDT", "1", "buy", 100, 1⟩ (by decide)).1⟩

/-- C5: the `INSERT INTO alerts ... WHERE volume > 1.0` query emits, for
each finalized window result, exactly one alert with
`signal = "volume_spike"` iff its volume is strictly greater than the
threshold 1.0, and no alert otherwise (so volume 1.2 alerts, volume at or
below 1.0 does not). -/
theorem volume_spike_alert_iff_threshold (r : WindowResult) :
    (volumeThreshold < r.volume →
      evaluateResult r = [alertOf r] ∧ (alertOf r).signal = "volume_spike") ∧
    (r.volume ≤ volumeThreshold → evaluateResult r = []) := by
  constructor
  · intro h
    exact ⟨by simp [evaluateResult, h], rfl⟩
  · intro h
    simp [evaluateResult, not_lt.2 h]

/-- C5 witness: volume 2 produces the single `volume_spike` alert;
volume exactly 1 produces none. -/
theorem volume_spike_alert_iff_threshold_witness :
    (evaluateResult ⟨20000, "BTCUSDT", "binance", 2, 100⟩ =
      [alertOf ⟨20000, "BTCUSDT", "binance", 2, 100⟩] ∧
     (alertOf (⟨20000, "BTCUSDT", "binance", 2, 100⟩ : WindowResult)).signal =
       "volume_spike") ∧
    evaluateResult ⟨20000, "BTCUSDT", "binance", 1, 100⟩ = [] :=
  ⟨(volume_spike_alert_iff_threshold _).1 (by decide),
   (volume_spike_alert_iff_threshold _).2 (by decide)⟩
